import Mathlib

/-!
# Verification of the book-chapter summarization pipeline

Shallow embedding of the Python source (`summarizer.py`, `config.py`) of the
Book_Features repository.  Python strings are modelled as `List Char`,
Python dictionaries produced by the extraction step as Lean structures, and
every call to the external text-generation service (`call_llm`) as an
explicit oracle function passed in as a parameter.  `json.loads` is modelled
as a parameter `parse : List Char → Option _`; a `none` result corresponds
to the raised `JSONDecodeError`, which the source never catches, so a
function that can hit it returns `Option`.  `tiktoken` token counting is
modelled as a parameter `ct : List Char → Nat`.
-/

set_option maxHeartbeats 1000000
set_option maxRecDepth 100000

namespace BookFeatures

/-- Python `str` modelled as a list of characters. -/
abbrev SStr := List Char

/-- The paragraph separator `"\n\n"` used by `chunk_text`. -/
def sep : SStr := ['\n', '\n']

/-- `text.split("\n\n")`: left-to-right, non-overlapping scan for the
two-newline separator, exactly as Python `str.split` behaves
(`summarizer.py` line 132). -/
def splitParas : SStr → List SStr
  | [] => [[]]
  | [c] => [[c]]
  | c :: d :: rest =>
    if c = '\n' ∧ d = '\n' then
      [] :: splitParas rest
    else
      match splitParas (d :: rest) with
      | [] => [[c]]
      | p :: ps => (c :: p) :: ps

/-- One step of the word-count scan: whitespace closes the current word,
a non-whitespace character opens one if none is open. -/
def countWordsStep (st : Nat × Bool) (c : Char) : Nat × Bool :=
  if c.isWhitespace then (st.1, false)
  else if st.2 then st else (st.1 + 1, true)

/-- `len(text.split())` (`count_words`, `summarizer.py` line 42): the number
of maximal runs of non-whitespace characters. -/
def countWords (s : SStr) : Nat :=
  (s.foldl countWordsStep ((0 : Nat), false)).1

/-- The accumulator loop of `chunk_text` (`summarizer.py` lines 133–149),
kept at the level of paragraph groups: `cur` is `current_chunk` (a list of
paragraphs), `tks` is `current_tokens`; a group is flushed when adding the
next paragraph would exceed `maxT` and the current group is non-empty. -/
def chunkGo (ct : SStr → Nat) (maxT : Nat) : List SStr → List SStr → Nat → List (List SStr)
  | [], cur, _ => if cur = [] then [] else [cur]
  | p :: ps, cur, tks =>
    let pt := ct p
    if maxT < tks + pt ∧ cur ≠ [] then
      cur :: chunkGo ct maxT ps [p] pt
    else
      chunkGo ct maxT ps (cur ++ [p]) (tks + pt)

/-- The grouping of a paragraph list performed by `chunk_text`'s loop. -/
def chunkGroups (ct : SStr → Nat) (maxT : Nat) (paras : List SStr) : List (List SStr) :=
  chunkGo ct maxT paras [] 0

/-- `chunk_text(text, max_tokens)` (`summarizer.py` lines 124–151): if the
whole text fits, return it as the single chunk; otherwise split into
paragraphs, group them by the accumulator loop, and emit each group joined
with `"\n\n"` (the source joins each group at the moment it is appended;
joining every group at the end yields the same list). -/
def chunkText (ct : SStr → Nat) (maxT : Nat) (text : SStr) : List SStr :=
  if ct text ≤ maxT then [text]
  else (chunkGroups ct maxT (splitParas text)).map (List.intercalate sep)

/-- The paragraph decomposition of each chunk emitted by `chunk_text`:
the whole paragraph list when the early return fires, the loop's groups
otherwise.  Related to `chunkText` by `chunkText_eq_map_chunkParas`. -/
def chunkParas (ct : SStr → Nat) (maxT : Nat) (text : SStr) : List (List SStr) :=
  if ct text ≤ maxT then [splitParas text]
  else chunkGroups ct maxT (splitParas text)

/-- Sum of the per-paragraph token counts of a group, i.e. the value
`current_tokens` holds for the group (`summarizer.py` lines 138, 143, 146). -/
def groupTokens (ct : SStr → Nat) (g : List SStr) : Nat :=
  (g.map ct).sum

-- ### Basic lemmas about `splitParas` and `List.intercalate`

theorem splitParas_ne_nil (s : SStr) : splitParas s ≠ [] := by
  induction s using splitParas.induct with
  | case1 => simp [splitParas]
  | case2 c => simp [splitParas]
  | case3 c d rest h ih =>
    simp only [splitParas, if_pos h]
    exact List.cons_ne_nil _ _
  | case4 c d rest h hm ih =>
    simp only [splitParas, if_neg h, hm]
    exact List.cons_ne_nil _ _
  | case5 c d rest h p ps hm ih =>
    simp only [splitParas, if_neg h, hm]
    exact List.cons_ne_nil _ _

theorem intercalate_cons₂ (s a b : List Char) (t : List SStr) :
    List.intercalate s (a :: b :: t) = a ++ s ++ List.intercalate s (b :: t) := by
  simp [List.intercalate, List.intersperse]

theorem intercalate_singleton (s a : List Char) :
    List.intercalate s [a] = a := by
  simp [List.intercalate, List.intersperse]

/-- `"\n\n".join(text.split("\n\n")) == text`: joining the paragraphs with
the separator reconstructs the text. -/
theorem intercalate_splitParas (s : SStr) :
    List.intercalate sep (splitParas s) = s := by
  induction s using splitParas.induct with
  | case1 => simp [splitParas, intercalate_singleton]
  | case2 c => simp [splitParas, intercalate_singleton]
  | case3 c d rest h ih =>
    have hu : splitParas (c :: d :: rest) = [] :: splitParas rest := by
      simp [splitParas, h.1, h.2]
    rw [hu]
    rcases hm : splitParas rest with _ | ⟨p, ps⟩
    · exact absurd hm (splitParas_ne_nil rest)
    · rw [hm] at ih
      rw [intercalate_cons₂, ih, h.1, h.2]
      simp [sep]
  | case4 c d rest h hm ih =>
    exact absurd hm (splitParas_ne_nil _)
  | case5 c d rest h p ps hm ih =>
    have hu : splitParas (c :: d :: rest) = (c :: p) :: ps := by
      simp [splitParas, if_neg h, hm]
    rw [hu, hm] at *
    match ps with
    | [] =>
      rw [intercalate_singleton]
      rw [intercalate_singleton] at ih
      simp [ih]
    | q :: qs =>
      rw [intercalate_cons₂]
      rw [intercalate_cons₂] at ih
      simp only [List.cons_append, List.append_assoc] at ih ⊢
      simp [ih]

-- ### Lemmas about the chunking loop

theorem chunkGo_flatten (ct : SStr → Nat) (maxT : Nat) :
    ∀ (ps cur : List SStr) (tks : Nat),
      (chunkGo ct maxT ps cur tks).flatten = cur ++ ps := by
  intro ps
  induction ps with
  | nil =>
    intro cur tks
    by_cases h : cur = [] <;> simp [chunkGo, h]
  | cons p ps ih =>
    intro cur tks
    simp only [chunkGo]
    by_cases h : maxT < tks + ct p ∧ cur ≠ []
    · rw [if_pos h]
      simp [ih]
    · rw [if_neg h]
      simp [ih]

theorem chunkGo_ne_nil (ct : SStr → Nat) (maxT : Nat) :
    ∀ (ps cur : List SStr) (tks : Nat) (g : List SStr),
      g ∈ chunkGo ct maxT ps cur tks → g ≠ [] := by
  intro ps
  induction ps with
  | nil =>
    intro cur tks g hg
    by_cases h : cur = []
    · simp [chunkGo, h] at hg
    · simp only [chunkGo, if_neg h, List.mem_singleton] at hg
      exact hg ▸ h
  | cons p ps ih =>
    intro cur tks g hg
    simp only [chunkGo] at hg
    by_cases h : maxT < tks + ct p ∧ cur ≠ []
    · rw [if_pos h] at hg
      rcases List.mem_cons.mp hg with hg | hg
      · exact hg ▸ h.2
      · exact ih _ _ _ hg
    · rw [if_neg h] at hg
      exact ih _ _ _ hg

theorem groupTokens_append_single (ct : SStr → Nat) (g : List SStr) (p : SStr) :
    groupTokens ct (g ++ [p]) = groupTokens ct g + ct p := by
  simp [groupTokens]

/-- Loop invariant for the token bound: starting from a current group whose
token sum respects the bound whenever it holds more than one paragraph,
every emitted group holding more than one paragraph has token sum at most
`maxT`. -/
theorem chunkGo_bound (ct : SStr → Nat) (maxT : Nat) :
    ∀ (ps cur : List SStr),
      (1 < cur.length → groupTokens ct cur ≤ maxT) →
      ∀ g ∈ chunkGo ct maxT ps cur (groupTokens ct cur),
        1 < g.length → groupTokens ct g ≤ maxT := by
  intro ps
  induction ps with
  | nil =>
    intro cur hcur g hg
    by_cases h : cur = []
    · simp [chunkGo, h] at hg
    · simp only [chunkGo, if_neg h, List.mem_singleton] at hg
      exact hg ▸ hcur
  | cons p ps ih =>
    intro cur hcur g hg
    simp only [chunkGo] at hg
    by_cases h : maxT < groupTokens ct cur + ct p ∧ cur ≠ []
    · rw [if_pos h] at hg
      rcases List.mem_cons.mp hg with hg | hg
      · exact hg ▸ hcur
      · have h1 : ct p = groupTokens ct [p] := by simp [groupTokens]
        rw [h1] at hg
        exact ih [p] (by simp) g hg
    · rw [if_neg h] at hg
      rw [← groupTokens_append_single] at hg
      refine ih (cur ++ [p]) ?_ g hg
      intro hlen
      rcases not_and_or.mp h with h | h
      · rw [groupTokens_append_single]
        exact Nat.le_of_not_lt h
      · exfalso
        rw [not_ne_iff.mp h] at hlen
        simp at hlen

/-- Loop invariant for oversized paragraphs: any group that contains a
paragraph whose own token count exceeds `maxT` is exactly that single
paragraph. -/
theorem chunkGo_big_alone (ct : SStr → Nat) (maxT : Nat) :
    ∀ (ps cur : List SStr),
      (∀ p ∈ cur, maxT < ct p → cur = [p]) →
      ∀ g ∈ chunkGo ct maxT ps cur (groupTokens ct cur),
        ∀ p ∈ g, maxT < ct p → g = [p] := by
  intro ps
  induction ps with
  | nil =>
    intro cur hcur g hg
    by_cases h : cur = []
    · simp [chunkGo, h] at hg
    · simp only [chunkGo, if_neg h, List.mem_singleton] at hg
      exact hg ▸ hcur
  | cons q ps ih =>
    intro cur hcur g hg
    simp only [chunkGo] at hg
    by_cases h : maxT < groupTokens ct cur + ct q ∧ cur ≠ []
    · rw [if_pos h] at hg
      rcases List.mem_cons.mp hg with hg | hg
      · exact hg ▸ hcur
      · have h1 : ct q = groupTokens ct [q] := by simp [groupTokens]
        rw [h1] at hg
        refine ih [q] ?_ g hg
        intro p hp _
        simp only [List.mem_singleton] at hp
        simp [hp]
    · rw [if_neg h] at hg
      rw [← groupTokens_append_single] at hg
      refine ih (cur ++ [q]) ?_ g hg
      intro p hp hbig
      rcases not_and_or.mp h with h | h
      · have hle : groupTokens ct cur + ct q ≤ maxT := Nat.le_of_not_lt h
        rcases List.mem_append.mp hp with hp | hp
        · exfalso
          have hsingle := hcur p hp hbig
          have h2 : groupTokens ct cur = ct p := by
            rw [hsingle]
            simp [groupTokens]
          have h3 : ct p ≤ maxT := le_trans (h2 ▸ Nat.le_add_right _ _) hle
          exact absurd hbig (not_lt.mpr h3)
        · have hpq : p = q := by simpa using hp
          exfalso
          have h3 : ct q ≤ maxT := le_trans (Nat.le_add_left _ _) hle
          exact absurd (hpq ▸ hbig) (not_lt.mpr h3)
      · rw [not_ne_iff.mp h]
        rw [not_ne_iff.mp h] at hp
        simp only [List.nil_append, List.mem_singleton] at hp
        simp [hp]

theorem intercalate_append_of_ne_nil (s : List Char) :
    ∀ (l₁ l₂ : List SStr), l₁ ≠ [] → l₂ ≠ [] →
      List.intercalate s (l₁ ++ l₂) =
        List.intercalate s l₁ ++ s ++ List.intercalate s l₂ := by
  intro l₁
  induction l₁ with
  | nil => intro l₂ h1 _; exact absurd rfl h1
  | cons a l₁ ih =>
    intro l₂ h1 h2
    match l₁ with
    | [] =>
      match l₂ with
      | b :: t =>
        rw [intercalate_singleton]
        simpa using intercalate_cons₂ s a b t
    | a2 :: l₁t =>
      have e1 : (a2 :: l₁t) ++ l₂ = a2 :: (l₁t ++ l₂) := by simp
      rw [List.cons_append, e1, intercalate_cons₂, ← e1, ih l₂ (by simp) h2,
        show List.intercalate s (a :: a2 :: l₁t) = a ++ s ++ List.intercalate s (a2 :: l₁t)
          from intercalate_cons₂ s a a2 l₁t]
      simp [List.append_assoc]

theorem flatten_ne_nil_of_ne_nil (gs : List (List SStr)) (hne : gs ≠ [])
    (hall : ∀ g ∈ gs, g ≠ []) : gs.flatten ≠ [] := by
  match gs with
  | g :: t =>
    have hg : g ≠ [] := hall g (by simp)
    simp only [List.flatten_cons]
    intro h
    exact hg (List.append_eq_nil.mp h).1

/-- Joining each group with the separator and then joining the chunk list
with the separator is the same as joining the flattened paragraph list. -/
theorem intercalate_map_intercalate (gs : List (List SStr))
    (hall : ∀ g ∈ gs, g ≠ []) :
    List.intercalate sep (gs.map (List.intercalate sep)) =
      List.intercalate sep gs.flatten := by
  induction gs with
  | nil => simp [List.intercalate]
  | cons g t ih =>
    match t with
    | [] =>
      simp only [List.map_cons, List.map_nil, List.flatten_cons, List.flatten_nil,
        List.append_nil]
      rw [intercalate_singleton]
    | g2 :: t2 =>
      have hg : g ≠ [] := hall g (by simp)
      have hall2 : ∀ x ∈ g2 :: t2, x ≠ [] := by
        intro x hx
        exact hall x (List.mem_cons_of_mem _ hx)
      have hfl : (g2 :: t2).flatten ≠ [] :=
        flatten_ne_nil_of_ne_nil _ (by simp) hall2
      simp only [List.map_cons, List.flatten_cons]
      rw [intercalate_cons₂, ← List.map_cons, ih hall2, ← List.flatten_cons,
        intercalate_append_of_ne_nil sep g ((g2 :: t2).flatten) hg hfl]

/-- The chunks returned by `chunk_text` are exactly the paragraph groups of
`chunkParas`, each joined with the paragraph separator. -/
theorem chunkText_eq_map_chunkParas (ct : SStr → Nat) (maxT : Nat) (text : SStr) :
    chunkText ct maxT text = (chunkParas ct maxT text).map (List.intercalate sep) := by
  unfold chunkText chunkParas
  by_cases h : ct text ≤ maxT
  · rw [if_pos h, if_pos h]
    simp [intercalate_splitParas]
  · rw [if_neg h, if_neg h]

theorem chunkGroups_ne_nil_mem (ct : SStr → Nat) (maxT : Nat) (paras : List SStr) :
    ∀ g ∈ chunkGroups ct maxT paras, g ≠ [] := by
  intro g hg
  exact chunkGo_ne_nil ct maxT paras [] 0 g hg

theorem chunkGroups_flatten (ct : SStr → Nat) (maxT : Nat) (paras : List SStr) :
    (chunkGroups ct maxT paras).flatten = paras := by
  unfold chunkGroups
  rw [chunkGo_flatten]
  simp

/-- C6: For every text `T` and every `max_tokens`, joining the segments
returned by `chunk_text(T, max_tokens)` with the paragraph separator
(blank line) reconstructs `T` exactly. -/
theorem chunk_join_reconstructs (ct : SStr → Nat) (maxT : Nat) (text : SStr) :
    List.intercalate sep (chunkText ct maxT text) = text := by
  rw [chunkText_eq_map_chunkParas]
  unfold chunkParas
  by_cases h : ct text ≤ maxT
  · rw [if_pos h]
    simp only [List.map_cons, List.map_nil]
    rw [intercalate_singleton, intercalate_splitParas]
  · rw [if_neg h]
    rw [intercalate_map_intercalate _ (chunkGroups_ne_nil_mem ct maxT _),
      chunkGroups_flatten, intercalate_splitParas]

/-- C7: in a text whose token count exceeds `max_tokens`, a paragraph whose
own token count exceeds `max_tokens` is kept whole as the sole paragraph of
its own segment: every paragraph group containing it equals `[p]`, the
singleton group `[p]` is one of the emitted groups, and `p` itself appears
verbatim as one of the chunks `chunk_text` returns. -/
theorem big_paragraph_isolated (ct : SStr → Nat) (maxT : Nat) (text p : SStr)
    (hbig_text : maxT < ct text) (hp : p ∈ splitParas text) (hbig : maxT < ct p) :
    (∀ g ∈ chunkParas ct maxT text, p ∈ g → g = [p]) ∧
      [p] ∈ chunkParas ct maxT text ∧ p ∈ chunkText ct maxT text := by
  have hnot : ¬ ct text ≤ maxT := not_le.mpr hbig_text
  have halone : ∀ g ∈ chunkGroups ct maxT (splitParas text), ∀ q ∈ g, maxT < ct q → g = [q] := by
    have h0 : (0 : Nat) = groupTokens ct [] := by simp [groupTokens]
    intro g hg
    unfold chunkGroups at hg
    rw [h0] at hg
    exact chunkGo_big_alone ct maxT (splitParas text) [] (by simp) g hg
  have hmem : ∃ g ∈ chunkGroups ct maxT (splitParas text), p ∈ g := by
    rw [← chunkGroups_flatten ct maxT (splitParas text)] at hp
    exact List.mem_flatten.mp hp
  obtain ⟨g, hg, hpg⟩ := hmem
  have hgp : g = [p] := halone g hg p hpg hbig
  refine ⟨?_, ?_, ?_⟩
  · intro g2 hg2 hpg2
    unfold chunkParas at hg2
    rw [if_neg hnot] at hg2
    exact halone g2 hg2 p hpg2 hbig
  · unfold chunkParas
    rw [if_neg hnot]
    exact hgp ▸ hg
  · rw [chunkText_eq_map_chunkParas]
    unfold chunkParas
    rw [if_neg hnot]
    have : List.intercalate sep [p] = p := intercalate_singleton sep p
    exact this ▸ List.mem_map_of_mem (List.intercalate sep) (hgp ▸ hg)

/-- Witness for C7 at a concrete input: with character count as the token
oracle, `max_tokens = 3`, and text `"abcdef\n\nxy"`, the oversized paragraph
`"abcdef"` is emitted alone. -/
theorem big_paragraph_isolated_witness :
    (∀ g ∈ chunkParas List.length 3 ('a' :: 'b' :: 'c' :: 'd' :: 'e' :: 'f' :: '\n' :: '\n' :: 'x' :: ['y']),
        ('a' :: 'b' :: 'c' :: 'd' :: 'e' :: ['f']) ∈ g → g = ['a' :: 'b' :: 'c' :: 'd' :: 'e' :: ['f']]) ∧
      ['a' :: 'b' :: 'c' :: 'd' :: 'e' :: ['f']] ∈
        chunkParas List.length 3 ('a' :: 'b' :: 'c' :: 'd' :: 'e' :: 'f' :: '\n' :: '\n' :: 'x' :: ['y']) ∧
      ('a' :: 'b' :: 'c' :: 'd' :: 'e' :: ['f']) ∈
        chunkText List.length 3 ('a' :: 'b' :: 'c' :: 'd' :: 'e' :: 'f' :: '\n' :: '\n' :: 'x' :: ['y']) :=
  big_paragraph_isolated List.length 3 _ _ (by decide) (by decide) (by decide)

/-- C10: every chunk that `chunk_text` emits decomposes into a paragraph
group (`chunkText` is `chunkParas` with each group joined), and every group
holding more than one paragraph has per-paragraph token sum at most
`max_tokens`; only single-paragraph groups may exceed the bound.  The
hypothesis states that the token count of the whole text is at least the
sum of its paragraphs' token counts (true of the character-count oracle and
of the byte-pair tokenizer, whose separators only add tokens); it is needed
only for the early-return branch that keeps a fitting text whole. -/
theorem multi_paragraph_chunk_bound (ct : SStr → Nat) (maxT : Nat) (text : SStr)
    (hsuper : groupTokens ct (splitParas text) ≤ ct text) :
    chunkText ct maxT text = (chunkParas ct maxT text).map (List.intercalate sep) ∧
      ∀ g ∈ chunkParas ct maxT text, 1 < g.length → groupTokens ct g ≤ maxT := by
  refine ⟨chunkText_eq_map_chunkParas ct maxT text, ?_⟩
  intro g hg hlen
  unfold chunkParas at hg
  by_cases h : ct text ≤ maxT
  · rw [if_pos h] at hg
    have hgeq : g = splitParas text := by simpa using hg
    exact le_trans (hgeq ▸ hsuper) h
  · rw [if_neg h] at hg
    unfold chunkGroups at hg
    have h0 : (0 : Nat) = groupTokens ct [] := by simp [groupTokens]
    rw [h0] at hg
    exact chunkGo_bound ct maxT (splitParas text) [] (by simp) g hg hlen

/-- Witness for C10 at a concrete input: character-count token oracle,
`max_tokens = 4`, text `"ab\n\ncd\n\nef"`; the grouping is
`[["ab","cd"], ["ef"]]` and the two-paragraph group sums to `4 ≤ 4`. -/
theorem multi_paragraph_chunk_bound_witness :
    chunkText List.length 4 ('a' :: 'b' :: '\n' :: '\n' :: 'c' :: 'd' :: '\n' :: '\n' :: 'e' :: ['f']) =
        (chunkParas List.length 4 ('a' :: 'b' :: '\n' :: '\n' :: 'c' :: 'd' :: '\n' :: '\n' :: 'e' :: ['f'])).map
          (List.intercalate sep) ∧
      ∀ g ∈ chunkParas List.length 4 ('a' :: 'b' :: '\n' :: '\n' :: 'c' :: 'd' :: '\n' :: '\n' :: 'e' :: ['f']),
        1 < g.length → groupTokens List.length g ≤ 4 :=
  multi_paragraph_chunk_bound List.length 4 _ (by decide)

-- ### Target word count (`generate_summary`, `summarizer.py` lines 268–270)

/-- `target_words = max(200, int(original_words * TARGET_SUMMARY_RATIO))`
with `TARGET_SUMMARY_RATIO = 0.13` (`config.py` line 13).  Python `int()`
truncates toward zero; the word count is non-negative and `0.13` is exactly
`13/100` as a rational, so the truncation is the natural-number division
`w * 13 / 100`. -/
def targetWordsOfCount (w : Nat) : Nat := max 200 (w * 13 / 100)

/-- The target word count `generate_summary` computes for a chapter text. -/
def targetWords (text : SStr) : Nat := targetWordsOfCount (countWords text)

/-- A chapter body consisting of `n` one-letter words, used to exercise the
target-word computation at a chosen word count. -/
def wordsText (n : Nat) : SStr := (List.replicate n ['a', ' ']).flatten

theorem countWords_foldl_wordsText (n : Nat) :
    ∀ c : Nat, (wordsText n).foldl countWordsStep (c, false) = (c + n, false) := by
  induction n with
  | zero => intro c; simp [wordsText]
  | succ n ih =>
    intro c
    have h1 : wordsText (n + 1) = 'a' :: ' ' :: wordsText n := by
      simp [wordsText, List.replicate_succ]
    have h2 : countWordsStep (c, false) 'a' = (c + 1, true) := by
      simp [countWordsStep, show 'a'.isWhitespace = false from by decide]
    have h3 : countWordsStep (c + 1, true) ' ' = (c + 1, false) := by
      simp [countWordsStep, show ' '.isWhitespace = true from by decide]
    rw [h1, List.foldl_cons, h2, List.foldl_cons, h3, ih (c + 1)]
    ring_nf

theorem countWords_wordsText (n : Nat) : countWords (wordsText n) = n := by
  unfold countWords
  rw [countWords_foldl_wordsText n 0]
  simp

/-- C1 counterexample: for a chapter of 1561 one-letter words the code
computes `max(200, int(1561 * 0.13)) = max(200, int(202.93)) = 202`, while
the claimed formula `max(200, round(1561 * 0.13)) = 203`: `int()` truncates
rather than rounds. -/
theorem target_words_not_round_cex :
    ¬ ((targetWords (wordsText 1561) : ℤ) =
        max 200 (round ((countWords (wordsText 1561) : ℚ) * (13 / 100)))) := by
  rw [show targetWords (wordsText 1561) = targetWordsOfCount 1561 by
      rw [targetWords, countWords_wordsText],
    countWords_wordsText]
  have h1 : (targetWordsOfCount 1561 : ℤ) = 202 := by norm_num [targetWordsOfCount]
  have h2 : round (((1561 : ℕ) : ℚ) * (13 / 100)) = 203 := by
    rw [round_eq]
    norm_num [Int.floor_eq_iff]
  rw [h1, h2]
  norm_num

theorem targetWordsOfCount_eq_floor (w : Nat) :
    (targetWordsOfCount w : ℤ) = max 200 ⌊(w : ℚ) * (13 / 100)⌋ := by
  have e : (w : ℚ) * (13 / 100) = ((w * 13 : ℕ) : ℚ) / ((100 : ℕ) : ℚ) := by
    push_cast
    ring
  rw [e, Rat.floor_natCast_div_natCast]
  unfold targetWordsOfCount
  push_cast
  rfl

/-- C1 (amended): for every chapter text, the summarizer's target word
count is `max(200, ⌊original_word_count * 0.13⌋)` — the floor (Python
`int()` truncation) of the ratio product, not its rounding. -/
theorem target_words_eq_floor (text : SStr) :
    (targetWords text : ℤ) = max 200 ⌊(countWords text : ℚ) * (13 / 100)⌋ :=
  targetWordsOfCount_eq_floor (countWords text)

-- ### Extraction records and `merge_extractions` (`summarizer.py` lines 204–254)

/-- An entry of the `characters` list: keyed by its `name` field
(`char.get("name")`, line 219); everything else in the JSON object is
summarized as a description payload. -/
structure Character where
  name : SStr
  description : SStr
deriving DecidableEq, Repr

/-- An entry of the `key_concepts` list: keyed by its `concept` field
(`concept.get("concept")`, line 244). -/
structure Concept where
  concept : SStr
  definition : SStr
deriving DecidableEq, Repr

/-- The fiction extraction dictionary (`merge_extractions`, lines 207–215). -/
structure FictionExtraction where
  characters : List Character
  events : List SStr
  plot_developments : List SStr
  settings : List SStr
  clues_or_foreshadowing : List SStr
  relationships : List SStr
  tone_mood : SStr
deriving DecidableEq, Repr

/-- The nonfiction extraction dictionary (lines 230–239). -/
structure NonfictionExtraction where
  main_arguments : List SStr
  key_concepts : List Concept
  evidence : List SStr
  case_studies : List SStr
  historical_references : List SStr
  techniques_methods : List SStr
  figures_data : List SStr
  connections : List SStr
deriving DecidableEq, Repr

/-- The empty fiction record `merge_extractions` starts from. -/
def emptyFiction : FictionExtraction :=
  { characters := [], events := [], plot_developments := [], settings := [],
    clues_or_foreshadowing := [], relationships := [], tone_mood := [] }

/-- The empty nonfiction record `merge_extractions` starts from. -/
def emptyNonfiction : NonfictionExtraction :=
  { main_arguments := [], key_concepts := [], evidence := [], case_studies := [],
    historical_references := [], techniques_methods := [], figures_data := [],
    connections := [] }

/-- The key-deduplicating inner loop shared by the `characters` and
`key_concepts` merges (lines 218–221 and 243–246): walk the segment's
items, appending an item and recording its key only when the key is not in
the `seen` set. -/
def addByKey (key : α → SStr) : List α → List SStr → List α → List α × List SStr
  | out, seen, [] => (out, seen)
  | out, seen, x :: xs =>
    if key x ∈ seen then addByKey key out seen xs
    else addByKey key (out ++ [x]) (key x :: seen) xs

/-- Accumulator loop of `firstSeenDedup`: keep an element only when it has
not occurred before. -/
def firstSeenDedupGo (seen : List SStr) : List SStr → List SStr
  | [] => []
  | x :: xs =>
    if x ∈ seen then firstSeenDedupGo seen xs
    else x :: firstSeenDedupGo (x :: seen) xs

/-- First-occurrence deduplication of a list, preserving first-seen order:
the canonical enumeration of the distinct elements Python's `set(...)`
holds.  `list(set(...))` yields these elements in some unspecified
(hash-dependent) iteration order, which is modelled as a parameter
`setList` constrained to return a permutation of this list. -/
def firstSeenDedup (l : List SStr) : List SStr := firstSeenDedupGo [] l

/-- One segment's contribution to the fiction merge (loop body, lines
217–228).  `setList` models `list(set(...))` (lines 224): it returns the
segment's distinct settings in Python's set-iteration order. -/
def mergeFictionStep (setList : List SStr → List SStr)
    (st : FictionExtraction × List SStr) (ext : FictionExtraction) :
    FictionExtraction × List SStr :=
  let m := st.1
  let seen := st.2
  let cs := addByKey Character.name m.characters seen ext.characters
  ({ characters := cs.1,
     events := m.events ++ ext.events,
     plot_developments := m.plot_developments ++ ext.plot_developments,
     settings := m.settings ++ setList ext.settings,
     clues_or_foreshadowing := m.clues_or_foreshadowing ++ ext.clues_or_foreshadowing,
     relationships := m.relationships ++ ext.relationships,
     tone_mood := if ext.tone_mood ≠ [] then ext.tone_mood else m.tone_mood },
   cs.2)

/-- `merge_extractions(extractions, "fiction")` (lines 206–228). -/
def mergeFiction (setList : List SStr → List SStr)
    (exts : List FictionExtraction) : FictionExtraction :=
  (exts.foldl (mergeFictionStep setList) (emptyFiction, [])).1

/-- One segment's contribution to the nonfiction merge (loop body, lines
241–252).  `setList` models `list(set(...))` (lines 249–250). -/
def mergeNonfictionStep (setList : List SStr → List SStr)
    (st : NonfictionExtraction × List SStr) (ext : NonfictionExtraction) :
    NonfictionExtraction × List SStr :=
  let m := st.1
  let seen := st.2
  let cs := addByKey Concept.concept m.key_concepts seen ext.key_concepts
  ({ main_arguments := m.main_arguments ++ ext.main_arguments,
     key_concepts := cs.1,
     evidence := m.evidence ++ ext.evidence,
     case_studies := m.case_studies ++ ext.case_studies,
     historical_references := m.historical_references ++ setList ext.historical_references,
     techniques_methods := m.techniques_methods ++ setList ext.techniques_methods,
     figures_data := m.figures_data ++ ext.figures_data,
     connections := m.connections ++ ext.connections },
   cs.2)

/-- `merge_extractions(extractions, book_type)` for a nonfiction book
(lines 229–252). -/
def mergeNonfiction (setList : List SStr → List SStr)
    (exts : List NonfictionExtraction) : NonfictionExtraction :=
  (exts.foldl (mergeNonfictionStep setList) (emptyNonfiction, [])).1

/-- Spec-comparison definition following the spec's words for C5: iterate
the concatenated per-segment items in order and append an item only if its
key has not been seen; the first definition wins. -/
def firstByKeyGo (key : α → SStr) : List α → List SStr → List α
  | [], _ => []
  | x :: xs, seen =>
    if key x ∈ seen then firstByKeyGo key xs seen
    else x :: firstByKeyGo key xs (key x :: seen)

/-- Spec-comparison definition following the spec's words for C5. -/
def firstByKey (key : α → SStr) (items : List α) : List α :=
  firstByKeyGo key items []

/-- The `seen` set after the key-deduplicating loop has walked `l`. -/
def seenAfter (key : α → SStr) (l : List α) (seen : List SStr) : List SStr :=
  l.foldl (fun s x => if key x ∈ s then s else key x :: s) seen

-- ### Lemmas about the key-deduplicating merge

theorem addByKey_eq (key : α → SStr) :
    ∀ (l out : List α) (seen : List SStr),
      addByKey key out seen l =
        (out ++ firstByKeyGo key l seen, seenAfter key l seen) := by
  intro l
  induction l with
  | nil => intro out seen; simp [addByKey, firstByKeyGo, seenAfter]
  | cons x xs ih =>
    intro out seen
    by_cases hx : key x ∈ seen
    · simp only [addByKey, firstByKeyGo, if_pos hx, seenAfter, List.foldl_cons]
      simpa [seenAfter] using ih out seen
    · simp only [addByKey, firstByKeyGo, if_neg hx, seenAfter, List.foldl_cons]
      rw [ih (out ++ [x]) (key x :: seen)]
      simp [seenAfter]

theorem seenAfter_append (key : α → SStr) (l₁ l₂ : List α) (seen : List SStr) :
    seenAfter key (l₁ ++ l₂) seen = seenAfter key l₂ (seenAfter key l₁ seen) := by
  simp [seenAfter, List.foldl_append]

theorem firstByKeyGo_append (key : α → SStr) :
    ∀ (l₁ l₂ : List α) (seen : List SStr),
      firstByKeyGo key (l₁ ++ l₂) seen =
        firstByKeyGo key l₁ seen ++ firstByKeyGo key l₂ (seenAfter key l₁ seen) := by
  intro l₁
  induction l₁ with
  | nil => intro l₂ seen; simp [firstByKeyGo, seenAfter]
  | cons x xs ih =>
    intro l₂ seen
    by_cases hx : key x ∈ seen
    · simp only [List.cons_append, firstByKeyGo, if_pos hx, seenAfter, List.foldl_cons]
      simpa [seenAfter] using ih l₂ seen
    · simp only [List.cons_append, firstByKeyGo, if_neg hx, seenAfter, List.foldl_cons]
      simpa [seenAfter] using ih l₂ (key x :: seen)

theorem mergeFiction_foldl_characters (setList : List SStr → List SStr) :
    ∀ (exts : List FictionExtraction) (m : FictionExtraction) (seen : List SStr),
      (exts.foldl (mergeFictionStep setList) (m, seen)).1.characters =
          m.characters ++
            firstByKeyGo Character.name (exts.flatMap FictionExtraction.characters) seen ∧
        (exts.foldl (mergeFictionStep setList) (m, seen)).2 =
          seenAfter Character.name (exts.flatMap FictionExtraction.characters) seen := by
  intro exts
  induction exts with
  | nil => intro m seen; simp [firstByKeyGo, seenAfter]
  | cons ext rest ih =>
    intro m seen
    have hstep : mergeFictionStep setList (m, seen) ext =
        ({ characters := m.characters ++ firstByKeyGo Character.name ext.characters seen,
           events := m.events ++ ext.events,
           plot_developments := m.plot_developments ++ ext.plot_developments,
           settings := m.settings ++ setList ext.settings,
           clues_or_foreshadowing := m.clues_or_foreshadowing ++ ext.clues_or_foreshadowing,
           relationships := m.relationships ++ ext.relationships,
           tone_mood := if ext.tone_mood ≠ [] then ext.tone_mood else m.tone_mood },
         seenAfter Character.name ext.characters seen) := by
      simp [mergeFictionStep, addByKey_eq]
    rw [List.foldl_cons, hstep]
    obtain ⟨h1, h2⟩ := ih _ (seenAfter Character.name ext.characters seen)
    constructor
    · rw [h1]
      simp [List.flatMap_cons, firstByKeyGo_append, List.append_assoc]
    · rw [h2]
      simp [List.flatMap_cons, seenAfter_append]

theorem mergeNonfiction_foldl_concepts (setList : List SStr → List SStr) :
    ∀ (exts : List NonfictionExtraction) (m : NonfictionExtraction) (seen : List SStr),
      (exts.foldl (mergeNonfictionStep setList) (m, seen)).1.key_concepts =
          m.key_concepts ++
            firstByKeyGo Concept.concept (exts.flatMap NonfictionExtraction.key_concepts) seen ∧
        (exts.foldl (mergeNonfictionStep setList) (m, seen)).2 =
          seenAfter Concept.concept (exts.flatMap NonfictionExtraction.key_concepts) seen := by
  intro exts
  induction exts with
  | nil => intro m seen; simp [firstByKeyGo, seenAfter]
  | cons ext rest ih =>
    intro m seen
    have hstep : mergeNonfictionStep setList (m, seen) ext =
        ({ main_arguments := m.main_arguments ++ ext.main_arguments,
           key_concepts := m.key_concepts ++ firstByKeyGo Concept.concept ext.key_concepts seen,
           evidence := m.evidence ++ ext.evidence,
           case_studies := m.case_studies ++ ext.case_studies,
           historical_references := m.historical_references ++ setList ext.historical_references,
           techniques_methods := m.techniques_methods ++ setList ext.techniques_methods,
           figures_data := m.figures_data ++ ext.figures_data,
           connections := m.connections ++ ext.connections },
         seenAfter Concept.concept ext.key_concepts seen) := by
      simp [mergeNonfictionStep, addByKey_eq]
    rw [List.foldl_cons, hstep]
    obtain ⟨h1, h2⟩ := ih _ (seenAfter Concept.concept ext.key_concepts seen)
    constructor
    · rw [h1]
      simp [List.flatMap_cons, firstByKeyGo_append, List.append_assoc]
    · rw [h2]
      simp [List.flatMap_cons, seenAfter_append]

theorem firstByKeyGo_find (key : α → SStr) :
    ∀ (items : List α) (seen : List SStr) (c : α),
      c ∈ firstByKeyGo key items seen →
        key c ∉ seen ∧
          items.find? (fun d => decide (key d = key c)) = some c := by
  intro items
  induction items with
  | nil => intro seen c hc; simp [firstByKeyGo] at hc
  | cons x xs ih =>
    intro seen c hc
    by_cases hx : key x ∈ seen
    · rw [firstByKeyGo, if_pos hx] at hc
      obtain ⟨hns, hfind⟩ := ih seen c hc
      refine ⟨hns, ?_⟩
      have hne : key x ≠ key c := fun h => hns (h ▸ hx)
      rw [List.find?_cons_of_neg _ (by simpa using hne), hfind]
    · rw [firstByKeyGo, if_neg hx] at hc
      rcases List.mem_cons.mp hc with hc | hc
      · subst hc
        exact ⟨hx, by rw [List.find?_cons_of_pos _ (by simp)]⟩
      · obtain ⟨hns, hfind⟩ := ih (key x :: seen) c hc
        have hne : key x ≠ key c := fun h => hns (by simp [h])
        have hns2 : key c ∉ seen := fun h => hns (List.mem_cons_of_mem _ h)
        exact ⟨hns2, by rw [List.find?_cons_of_neg _ (by simpa using hne), hfind]⟩

/-- C5: merging iterates segments in order; a character (keyed by `name`)
or a concept (keyed by `concept`) is appended only if its key has not been
seen before; when a later segment repeats a key the first segment's item is
kept and the later duplicate is dropped.  Formally: the merged keyed list
is the first-seen-wins filter of the segment-order concatenation, and every
merged item is the first item bearing its key in that concatenation. -/
theorem merge_key_first_wins (setList : List SStr → List SStr)
    (extsF : List FictionExtraction) (extsN : List NonfictionExtraction) :
    ((mergeFiction setList extsF).characters =
        firstByKey Character.name (extsF.flatMap FictionExtraction.characters) ∧
      ∀ c ∈ (mergeFiction setList extsF).characters,
        (extsF.flatMap FictionExtraction.characters).find?
            (fun d => decide (d.name = c.name)) = some c) ∧
      ((mergeNonfiction setList extsN).key_concepts =
          firstByKey Concept.concept (extsN.flatMap NonfictionExtraction.key_concepts) ∧
        ∀ c ∈ (mergeNonfiction setList extsN).key_concepts,
          (extsN.flatMap NonfictionExtraction.key_concepts).find?
              (fun d => decide (d.concept = c.concept)) = some c) := by
  have hF : (mergeFiction setList extsF).characters =
      firstByKey Character.name (extsF.flatMap FictionExtraction.characters) := by
    unfold mergeFiction firstByKey
    have := (mergeFiction_foldl_characters setList extsF emptyFiction []).1
    simpa [emptyFiction] using this
  have hN : (mergeNonfiction setList extsN).key_concepts =
      firstByKey Concept.concept (extsN.flatMap NonfictionExtraction.key_concepts) := by
    unfold mergeNonfiction firstByKey
    have := (mergeNonfiction_foldl_concepts setList extsN emptyNonfiction []).1
    simpa [emptyNonfiction] using this
  refine ⟨⟨hF, ?_⟩, hN, ?_⟩
  · intro c hc
    rw [hF] at hc
    exact (firstByKeyGo_find Character.name _ [] c hc).2
  · intro c hc
    rw [hN] at hc
    exact (firstByKeyGo_find Concept.concept _ [] c hc).2

-- ### Set-like merge fields (C4)

theorem mergeFiction_foldl_settings (setList : List SStr → List SStr) :
    ∀ (exts : List FictionExtraction) (m : FictionExtraction) (seen : List SStr),
      (exts.foldl (mergeFictionStep setList) (m, seen)).1.settings =
        m.settings ++ (exts.map (fun e => setList e.settings)).flatten := by
  intro exts
  induction exts with
  | nil => intro m seen; simp
  | cons ext rest ih =>
    intro m seen
    rw [List.foldl_cons]
    have hstep : ((mergeFictionStep setList (m, seen) ext).1.settings,
        (mergeFictionStep setList (m, seen) ext).1.settings) =
        (m.settings ++ setList ext.settings, m.settings ++ setList ext.settings) := by
      simp [mergeFictionStep]
    have h1 : (mergeFictionStep setList (m, seen) ext).1.settings =
        m.settings ++ setList ext.settings := congrArg Prod.fst hstep
    calc (List.foldl (mergeFictionStep setList) (mergeFictionStep setList (m, seen) ext) rest).1.settings
        = (mergeFictionStep setList (m, seen) ext).1.settings ++
            (rest.map (fun e => setList e.settings)).flatten := by
          have := ih (mergeFictionStep setList (m, seen) ext).1
            (mergeFictionStep setList (m, seen) ext).2
          simpa using this
      _ = m.settings ++ (((ext :: rest).map (fun e => setList e.settings)).flatten) := by
          rw [h1]
          simp [List.append_assoc]

theorem mergeNonfiction_foldl_setlike (setList : List SStr → List SStr) :
    ∀ (exts : List NonfictionExtraction) (m : NonfictionExtraction) (seen : List SStr),
      (exts.foldl (mergeNonfictionStep setList) (m, seen)).1.historical_references =
          m.historical_references ++
            (exts.map (fun e => setList e.historical_references)).flatten ∧
        (exts.foldl (mergeNonfictionStep setList) (m, seen)).1.techniques_methods =
          m.techniques_methods ++
            (exts.map (fun e => setList e.techniques_methods)).flatten := by
  intro exts
  induction exts with
  | nil => intro m seen; simp
  | cons ext rest ih =>
    intro m seen
    rw [List.foldl_cons]
    obtain ⟨ih1, ih2⟩ := ih (mergeNonfictionStep setList (m, seen) ext).1
      (mergeNonfictionStep setList (m, seen) ext).2
    have h1 : (mergeNonfictionStep setList (m, seen) ext).1.historical_references =
        m.historical_references ++ setList ext.historical_references := by
      simp [mergeNonfictionStep]
    have h2 : (mergeNonfictionStep setList (m, seen) ext).1.techniques_methods =
        m.techniques_methods ++ setList ext.techniques_methods := by
      simp [mergeNonfictionStep]
    constructor
    · rw [show List.foldl (mergeNonfictionStep setList) (mergeNonfictionStep setList (m, seen) ext) rest =
          List.foldl (mergeNonfictionStep setList)
            ((mergeNonfictionStep setList (m, seen) ext).1,
              (mergeNonfictionStep setList (m, seen) ext).2) rest from by simp] at *
      rw [ih1, h1]
      simp [List.append_assoc]
    · rw [show List.foldl (mergeNonfictionStep setList) (mergeNonfictionStep setList (m, seen) ext) rest =
          List.foldl (mergeNonfictionStep setList)
            ((mergeNonfictionStep setList (m, seen) ext).1,
              (mergeNonfictionStep setList (m, seen) ext).2) rest from by simp] at *
      rw [ih2, h2]
      simp [List.append_assoc]

theorem flatten_perm_of_forall_perm (l : List β) (f g : β → List SStr)
    (h : ∀ x, (f x).Perm (g x)) :
    ((l.map f).flatten).Perm ((l.map g).flatten) := by
  induction l with
  | nil => simp
  | cons x xs ih =>
    simp only [List.map_cons, List.flatten_cons]
    exact List.Perm.append (h x) ih

/-- A possible iteration order of Python's `set`: the distinct elements in
reverse first-seen order.  Hash-randomized string sets make no ordering
promise, so any permutation of the distinct elements is a legal outcome;
this one witnesses that the first-seen order is not preserved. -/
def revSetList (l : List SStr) : List SStr := (firstSeenDedup l).reverse

/-- A segment record whose raw `settings` output is `["a", "b"]`. -/
def cexExtAB : FictionExtraction :=
  { emptyFiction with settings := [['a'], ['b']] }

/-- C4 counterexample: `list(set(...))` is not guaranteed to preserve
first-seen order.  `revSetList` returns exactly the distinct elements of a
segment's settings (a permutation of them, as Python's hash-ordered `set`
may), yet merging the single segment with raw settings `["a", "b"]` then
yields `["b", "a"]`, not the first-seen-order `["a", "b"]` the claim
asserts. -/
theorem merge_settings_order_cex :
    (∀ l : List SStr, (revSetList l).Perm (firstSeenDedup l)) ∧
      (mergeFiction revSetList [cexExtAB]).settings ≠
        (([cexExtAB] : List FictionExtraction).map
            (fun e => firstSeenDedup e.settings)).flatten := by
  constructor
  · intro l
    exact (firstSeenDedup l).reverse_perm
  · decide

/-- C4 (amended): the merged set-like fields (`settings`,
`historical_references`, `techniques_methods`) are the segment-order
concatenation of each segment's contribution deduplicated within that
segment only — cross-segment duplicates are kept — but each segment's
contribution comes out in the Python set's unspecified iteration order: it
is a permutation of the segment's distinct values, not necessarily their
first-seen order. -/
theorem merge_setlike_dedup_within_segment (setList : List SStr → List SStr)
    (hset : ∀ l, (setList l).Perm (firstSeenDedup l))
    (extsF : List FictionExtraction) (extsN : List NonfictionExtraction) :
    ((mergeFiction setList extsF).settings =
        (extsF.map (fun e => setList e.settings)).flatten ∧
      (mergeFiction setList extsF).settings.Perm
        ((extsF.map (fun e => firstSeenDedup e.settings)).flatten)) ∧
      ((mergeNonfiction setList extsN).historical_references =
          (extsN.map (fun e => setList e.historical_references)).flatten ∧
        (mergeNonfiction setList extsN).historical_references.Perm
          ((extsN.map (fun e => firstSeenDedup e.historical_references)).flatten)) ∧
      ((mergeNonfiction setList extsN).techniques_methods =
          (extsN.map (fun e => setList e.techniques_methods)).flatten ∧
        (mergeNonfiction setList extsN).techniques_methods.Perm
          ((extsN.map (fun e => firstSeenDedup e.techniques_methods)).flatten)) := by
  have hF : (mergeFiction setList extsF).settings =
      (extsF.map (fun e => setList e.settings)).flatten := by
    unfold mergeFiction
    simpa [emptyFiction] using mergeFiction_foldl_settings setList extsF emptyFiction []
  obtain ⟨hN1, hN2⟩ := mergeNonfiction_foldl_setlike setList extsN emptyNonfiction []
  have hN1e : (mergeNonfiction setList extsN).historical_references =
      (extsN.map (fun e => setList e.historical_references)).flatten := by
    unfold mergeNonfiction
    simpa [emptyNonfiction] using hN1
  have hN2e : (mergeNonfiction setList extsN).techniques_methods =
      (extsN.map (fun e => setList e.techniques_methods)).flatten := by
    unfold mergeNonfiction
    simpa [emptyNonfiction] using hN2
  refine ⟨⟨hF, ?_⟩, ⟨hN1e, ?_⟩, hN2e, ?_⟩
  · rw [hF]
    exact flatten_perm_of_forall_perm extsF _ _ (fun e => hset e.settings)
  · rw [hN1e]
    exact flatten_perm_of_forall_perm extsN _ _ (fun e => hset e.historical_references)
  · rw [hN2e]
    exact flatten_perm_of_forall_perm extsN _ _ (fun e => hset e.techniques_methods)

/-- A second fiction segment repeating the distinct setting `"b"`. -/
def cexExtB : FictionExtraction := { emptyFiction with settings := [['b']] }

/-- A nonfiction segment with an in-segment duplicate historical reference. -/
def cexNExt : NonfictionExtraction :=
  { main_arguments := [], key_concepts := [], evidence := [], case_studies := [],
    historical_references := [['h'], ['h']], techniques_methods := [['t']],
    figures_data := [], connections := [] }

/-- Witness for the amended C4 at concrete segments: with the first-seen
iteration order, merging segments with settings `["a","b"]` and `["b"]`
keeps the cross-segment duplicate `"b"`. -/
theorem merge_setlike_dedup_within_segment_witness :
    ((mergeFiction firstSeenDedup [cexExtAB, cexExtB]).settings =
        (([cexExtAB, cexExtB] : List FictionExtraction).map
            (fun e => firstSeenDedup e.settings)).flatten ∧
      (mergeFiction firstSeenDedup [cexExtAB, cexExtB]).settings.Perm
        (([cexExtAB, cexExtB] : List FictionExtraction).map
            (fun e => firstSeenDedup e.settings)).flatten) ∧
      ((mergeNonfiction firstSeenDedup [cexNExt]).historical_references =
          (([cexNExt] : List NonfictionExtraction).map
              (fun e => firstSeenDedup e.historical_references)).flatten ∧
        (mergeNonfiction firstSeenDedup [cexNExt]).historical_references.Perm
          (([cexNExt] : List NonfictionExtraction).map
              (fun e => firstSeenDedup e.historical_references)).flatten) ∧
      ((mergeNonfiction firstSeenDedup [cexNExt]).techniques_methods =
          (([cexNExt] : List NonfictionExtraction).map
              (fun e => firstSeenDedup e.techniques_methods)).flatten ∧
        (mergeNonfiction firstSeenDedup [cexNExt]).techniques_methods.Perm
          (([cexNExt] : List NonfictionExtraction).map
              (fun e => firstSeenDedup e.techniques_methods)).flatten) :=
  merge_setlike_dedup_within_segment firstSeenDedup
    (fun l => List.Perm.refl (firstSeenDedup l)) [cexExtAB, cexExtB] [cexNExt]

-- ### Summary generation (`generate_summary`, `summarizer.py` lines 257–317)

/-- Python's `s or d` for strings: `d` when `s` is empty (falsy). -/
def orDefault (s d : SStr) : SStr := if s = [] then d else s

/-- The fallback prior-context sentence (lines 180, 285). -/
def firstChapterMsg : SStr := "This is the first chapter.".toList

/-- The data `generate_summary` interpolates into one per-segment prompt
(template fields of `SUMMARY_*_PROMPT`): the external service call is
modelled as an oracle `SummaryRequest → SStr`. -/
structure SummaryRequest where
  chapterTitle : SStr
  storySoFar : SStr
  extraction : FictionExtraction
  chapterText : SStr
  targetWords : Nat
deriving DecidableEq, Repr

/-- The data interpolated into the final combination prompt (lines
308–315): every partial segment summary plus one target word count. -/
structure CombineRequest where
  partials : List SStr
  targetWords : Nat
deriving DecidableEq, Repr

/-- `f"{chapter_title} (Part {i+1}/{len(chunks)})"` (line 299). -/
def partTitle (title : SStr) (i n : Nat) : SStr :=
  title ++ (" (Part " ++ Nat.repr (i + 1) ++ "/" ++ Nat.repr n ++ ")").toList

/-- `f"{story_so_far}\n\n[Previous part of this chapter: {prev[:500]}...]"`
(line 300): the continuity context handed to every segment after the first,
embedding the FIRST 500 characters of the previous segment's summary. -/
def prevContext (story prev : SStr) : SStr :=
  story ++ "\n\n[Previous part of this chapter: ".toList ++ prev.take 500 ++ "...]".toList

/-- The last `n` characters of a string. -/
def lastChars (n : Nat) (s : SStr) : SStr := s.drop (s.length - n)

/-- Spec-comparison definition following the spec's words for C2: the
continuity context carrying a TRAILING excerpt — the LAST 500 characters —
of the previous segment's summary. -/
def specPrevContext (story prev : SStr) : SStr :=
  story ++ "\n\n[Previous part of this chapter: ".toList ++ lastChars 500 prev ++ "...]".toList

/-- The per-segment summarization loop (lines 293–305): `acc` is
`chunk_summaries` so far; each iteration builds the segment's request
(recording it), calls the oracle, and appends the summary.  Returns the
segment summaries and the issued requests, in order. -/
def summarizeChunksGo (llm : SummaryRequest → SStr) (story : SStr)
    (extr : FictionExtraction) (title : SStr) (n targetW : Nat) :
    List SStr → Nat → List SStr → List SStr × List SummaryRequest
  | [], _, acc => (acc, [])
  | c :: cs, i, acc =>
    let req : SummaryRequest :=
      { chapterTitle := partTitle title i n,
        storySoFar := if i = 0 then story else prevContext story ((acc.getLast?).getD []),
        extraction := extr,
        chapterText := c,
        targetWords := targetW / n }
    let s := llm req
    let rest := summarizeChunksGo llm story extr title n targetW cs (i + 1) (acc ++ [s])
    (rest.1, req :: rest.2)

/-- `generate_summary` (lines 257–317), with the two oracle calls made
explicit.  Returns the final summary text, the list of per-segment
summary requests issued, and the combination request when one is issued
(`none` for a single-segment chapter). -/
def generateSummary (llm : SummaryRequest → SStr) (combineLlm : CombineRequest → SStr)
    (ct : SStr → Nat) (maxT : Nat) (title story : SStr) (extr : FictionExtraction)
    (text : SStr) : SStr × List SummaryRequest × Option CombineRequest :=
  let targetW := targetWords text
  let chunks := chunkText ct maxT text
  if chunks.length = 1 then
    let req : SummaryRequest :=
      { chapterTitle := title,
        storySoFar := orDefault story firstChapterMsg,
        extraction := extr,
        chapterText := text,
        targetWords := targetW }
    (llm req, [req], none)
  else
    let res := summarizeChunksGo llm story extr title chunks.length targetW chunks 0 []
    let creq : CombineRequest := { partials := res.1, targetWords := targetW }
    (combineLlm creq, res.2, some creq)

theorem summarizeChunksGo_spec (llm : SummaryRequest → SStr) (story : SStr)
    (extr : FictionExtraction) (title : SStr) (n targetW : Nat) :
    ∀ (cs : List SStr) (i : Nat) (acc : List SStr),
      (summarizeChunksGo llm story extr title n targetW cs i acc).1 =
          acc ++ (summarizeChunksGo llm story extr title n targetW cs i acc).2.map llm ∧
        (summarizeChunksGo llm story extr title n targetW cs i acc).2.length = cs.length ∧
        (∀ req ∈ (summarizeChunksGo llm story extr title n targetW cs i acc).2,
          req.targetWords = targetW / n) ∧
        (∀ req, (summarizeChunksGo llm story extr title n targetW cs i acc).2[0]? = some req →
          req.storySoFar =
            if i = 0 then story else prevContext story ((acc.getLast?).getD [])) ∧
        (∀ (j : Nat) (req2 req : SummaryRequest),
          (summarizeChunksGo llm story extr title n targetW cs i acc).2[j]? = some req2 →
          (summarizeChunksGo llm story extr title n targetW cs i acc).2[j + 1]? = some req →
          req.storySoFar = prevContext story (llm req2)) := by
  intro cs
  induction cs with
  | nil =>
    intro i acc
    refine ⟨by simp [summarizeChunksGo], by simp [summarizeChunksGo], ?_, ?_, ?_⟩
    · intro req hreq
      simp [summarizeChunksGo] at hreq
    · intro req hreq
      simp [summarizeChunksGo] at hreq
    · intro j req2 req hreq2 hreq
      simp [summarizeChunksGo] at hreq
  | cons c cs ih =>
    intro i acc
    obtain ⟨ih1, ih2, ih3, ih4, ih5⟩ := ih (i + 1)
      (acc ++ [llm { chapterTitle := partTitle title i n,
                     storySoFar := if i = 0 then story
                       else prevContext story ((acc.getLast?).getD []),
                     extraction := extr, chapterText := c,
                     targetWords := targetW / n }])
    refine ⟨?_, ?_, ?_, ?_, ?_⟩
    · simp only [summarizeChunksGo, List.map_cons]
      rw [ih1]
      simp
    · simp only [summarizeChunksGo, List.length_cons]
      rw [ih2]
    · intro req hreq
      simp only [summarizeChunksGo, List.mem_cons] at hreq
      rcases hreq with hreq | hreq
      · simp [hreq]
      · exact ih3 req hreq
    · intro req hreq
      simp only [summarizeChunksGo, List.getElem?_cons_zero, Option.some_inj] at hreq
      simp [← hreq]
    · intro j req2 req hreq2 hreq
      simp only [summarizeChunksGo] at hreq2 hreq
      match j with
      | 0 =>
        rw [List.getElem?_cons_zero, Option.some_inj] at hreq2
        rw [show (0 : Nat) + 1 = 0 + 1 from rfl, List.getElem?_cons_succ] at hreq
        have h4 := ih4 req hreq
        rw [if_neg (Nat.succ_ne_zero i)] at h4
        rw [h4, ← hreq2]
        congr 1
        simp
      | j + 1 =>
        rw [List.getElem?_cons_succ] at hreq2
        rw [List.getElem?_cons_succ] at hreq
        exact ih5 j req2 req hreq2 hreq

theorem generateSummary_reqs (llm : SummaryRequest → SStr)
    (combineLlm : CombineRequest → SStr) (ct : SStr → Nat) (maxT : Nat)
    (title story : SStr) (extr : FictionExtraction) (text : SStr) :
    (generateSummary llm combineLlm ct maxT title story extr text).2.1 =
      if (chunkText ct maxT text).length = 1 then
        [⟨title, orDefault story firstChapterMsg, extr, text, targetWords text⟩]
      else
        (summarizeChunksGo llm story extr title (chunkText ct maxT text).length
          (targetWords text) (chunkText ct maxT text) 0 []).2 := by
  unfold generateSummary
  by_cases hc : (chunkText ct maxT text).length = 1 <;> simp [hc]

theorem generateSummary_combine (llm : SummaryRequest → SStr)
    (combineLlm : CombineRequest → SStr) (ct : SStr → Nat) (maxT : Nat)
    (title story : SStr) (extr : FictionExtraction) (text : SStr) :
    (generateSummary llm combineLlm ct maxT title story extr text).2.2 =
      if (chunkText ct maxT text).length = 1 then none
      else
        some ⟨(summarizeChunksGo llm story extr title (chunkText ct maxT text).length
            (targetWords text) (chunkText ct maxT text) 0 []).1,
          targetWords text⟩ := by
  unfold generateSummary
  by_cases hc : (chunkText ct maxT text).length = 1 <;> simp [hc]

/-- C2 (amended): in a chapter split into two or more segments, every
segment request after the first carries as continuity context the previous
segment's summary truncated to its FIRST 500 characters (`prev[:500]`, a
leading excerpt), appended to the story-so-far marker text. -/
theorem summary_prev_excerpt_first500 (llm : SummaryRequest → SStr)
    (combineLlm : CombineRequest → SStr) (ct : SStr → Nat) (maxT : Nat)
    (title story : SStr) (extr : FictionExtraction) (text : SStr) :
    ∀ (j : Nat) (req2 req : SummaryRequest),
      (generateSummary llm combineLlm ct maxT title story extr text).2.1[j]? = some req2 →
      (generateSummary llm combineLlm ct maxT title story extr text).2.1[j + 1]? = some req →
      req.storySoFar = prevContext story (llm req2) := by
  intro j req2 req h2 h1
  rw [generateSummary_reqs] at h2 h1
  by_cases hc : (chunkText ct maxT text).length = 1
  · rw [if_pos hc] at h1
    rw [List.getElem?_cons_succ, List.getElem?_nil] at h1
    exact absurd h1 (by simp)
  · rw [if_neg hc] at h2 h1
    exact (summarizeChunksGo_spec llm story extr title (chunkText ct maxT text).length
      (targetWords text) (chunkText ct maxT text) 0 []).2.2.2.2 j req2 req h2 h1

/-- A summary oracle answering every request with `"s"`. -/
def sLlm : SummaryRequest → SStr := fun _ => ['s']

/-- A combination oracle answering with the empty string. -/
def cLlm : CombineRequest → SStr := fun _ => []

/-- A two-paragraph chapter body `"x\n\ny"` that splits into two segments
under the character-count token oracle with `max_tokens = 1`. -/
def xyText : SStr := ['x', '\n', '\n', 'y']

/-- Witness for the amended C2 at a concrete split chapter: the second
segment's request embeds the first 500 characters of the first segment's
summary. -/
theorem summary_prev_excerpt_first500_witness :
    (⟨partTitle [] 1 2, prevContext [] ['s'], emptyFiction, ['y'], 100⟩
        : SummaryRequest).storySoFar =
      prevContext [] (sLlm ⟨partTitle [] 0 2, [], emptyFiction, ['x'], 100⟩) :=
  summary_prev_excerpt_first500 sLlm cLlm List.length 1 [] [] emptyFiction xyText 0
    ⟨partTitle [] 0 2, [], emptyFiction, ['x'], 100⟩
    ⟨partTitle [] 1 2, prevContext [] ['s'], emptyFiction, ['y'], 100⟩
    (by decide) (by decide)

/-- A summary oracle whose answer is 501 characters long, with a `'b'`
leading and 500 `'a'`s trailing, so its first 500 and last 500 characters
differ. -/
def longLlm : SummaryRequest → SStr := fun _ => 'b' :: List.replicate 500 'a'

/-- C2 counterexample: when the previous segment's summary is longer than
500 characters, the continuity excerpt the code embeds (`prev[:500]`, the
first 500 characters) differs from the trailing excerpt (last ~500
characters) the claim describes: request 2 of the chapter `"x\n\ny"`
carries the leading excerpt, not the trailing one. -/
theorem summary_prev_excerpt_cex :
    ((generateSummary longLlm cLlm List.length 1 [] [] emptyFiction xyText).2.1.map
          (fun r => r.storySoFar))[1]? =
        some (prevContext [] ('b' :: List.replicate 500 'a')) ∧
      prevContext [] ('b' :: List.replicate 500 'a') ≠
        specPrevContext [] ('b' :: List.replicate 500 'a') := by
  exact ⟨by decide, by decide⟩

/-- C9: for a chapter split into `n ≥ 2` segments, the final combination
request carries exactly the `n` partial segment summaries (one per
segment, in order: the oracle's answers to the `n` segment requests) and
the single full-chapter target word count — not `n` times it and not the
per-segment sub-target `target_words / n`, which is what each segment
request carried. -/
theorem combine_request_full_target (llm : SummaryRequest → SStr)
    (combineLlm : CombineRequest → SStr) (ct : SStr → Nat) (maxT : Nat)
    (title story : SStr) (extr : FictionExtraction) (text : SStr)
    (h2 : 2 ≤ (chunkText ct maxT text).length) :
    (generateSummary llm combineLlm ct maxT title story extr text).2.2 =
        some ⟨(generateSummary llm combineLlm ct maxT title story extr text).2.1.map llm,
          targetWords text⟩ ∧
      (generateSummary llm combineLlm ct maxT title story extr text).2.1.length =
        (chunkText ct maxT text).length ∧
      ∀ req ∈ (generateSummary llm combineLlm ct maxT title story extr text).2.1,
        req.targetWords = targetWords text / (chunkText ct maxT text).length := by
  have hc : ¬ (chunkText ct maxT text).length = 1 := by omega
  obtain ⟨s1, s2, s3, _, _⟩ := summarizeChunksGo_spec llm story extr title
    (chunkText ct maxT text).length (targetWords text) (chunkText ct maxT text) 0 []
  refine ⟨?_, ?_, ?_⟩
  · rw [generateSummary_combine, generateSummary_reqs, if_neg hc, if_neg hc]
    rw [s1]
    simp
  · rw [generateSummary_reqs, if_neg hc]
    exact s2
  · rw [generateSummary_reqs, if_neg hc]
    exact s3

/-- Witness for C9 at the concrete two-segment chapter `"x\n\ny"`. -/
theorem combine_request_full_target_witness :
    (generateSummary sLlm cLlm List.length 1 [] [] emptyFiction xyText).2.2 =
        some ⟨(generateSummary sLlm cLlm List.length 1 [] [] emptyFiction xyText).2.1.map sLlm,
          targetWords xyText⟩ ∧
      (generateSummary sLlm cLlm List.length 1 [] [] emptyFiction xyText).2.1.length =
        (chunkText List.length 1 xyText).length ∧
      ∀ req ∈ (generateSummary sLlm cLlm List.length 1 [] [] emptyFiction xyText).2.1,
        req.targetWords = targetWords xyText / (chunkText List.length 1 xyText).length :=
  combine_request_full_target sLlm cLlm List.length 1 [] [] emptyFiction xyText (by decide)

-- ### Element extraction (`extract_elements`, `summarizer.py` lines 158–201)

/-- The data interpolated into one extraction prompt
(`EXTRACT_*_PROMPT` template fields). -/
structure ExtractRequest where
  chapterTitle : SStr
  priorContext : SStr
  chapterText : SStr
deriving DecidableEq, Repr

/-- `f"\n\n[Processing part {i+1} of {n} of this chapter]"` (line 189). -/
def partNote (i n : Nat) : SStr :=
  ("\n\n[Processing part " ++ Nat.repr (i + 1) ++ " of " ++ Nat.repr n ++
    " of this chapter]").toList

/-- The request built for segment `i` of `n` in the multi-segment loop
(lines 188–196). -/
def extractReq (title prior : SStr) (i n : Nat) (chunk : SStr) : ExtractRequest :=
  { chapterTitle := title, priorContext := prior ++ partNote i n, chapterText := chunk }

/-- The multi-segment extraction loop (lines 187–198): call the oracle per
segment and parse each response with `json.loads`.  A `none` from `parse`
is the raised `JSONDecodeError`: the loop stops and the error propagates,
so the whole loop yields `none`. -/
def extractLoop (llm : ExtractRequest → SStr) (parse : SStr → Option α)
    (title prior : SStr) (n : Nat) : List SStr → Nat → Option (List α)
  | [], _ => some []
  | c :: cs, i =>
    match parse (llm (extractReq title prior i n c)) with
    | none => none
    | some e => (extractLoop llm parse title prior n cs (i + 1)).map (fun es => e :: es)

/-- `extract_elements` (lines 158–201): one request for a single-segment
chapter, otherwise the per-segment loop followed by `merge_extractions`.
`none` models the uncaught `JSONDecodeError` escaping the function. -/
def extractElements (llm : ExtractRequest → SStr) (parse : SStr → Option α)
    (merge : List α → α) (ct : SStr → Nat) (maxT : Nat)
    (title prior text : SStr) : Option α :=
  let chunks := chunkText ct maxT text
  if chunks.length = 1 then
    parse (llm { chapterTitle := title,
                 priorContext := orDefault prior firstChapterMsg,
                 chapterText := text })
  else
    (extractLoop llm parse title prior chunks.length chunks 0).map merge

/-- Spec-comparison loop following the spec's words for C3: a segment whose
response fails to parse contributes an empty record and the loop continues. -/
def specExtractLoop (llm : ExtractRequest → SStr) (parse : SStr → Option α)
    (empty : α) (title prior : SStr) (n : Nat) : List SStr → Nat → List α
  | [], _ => []
  | c :: cs, i =>
    (parse (llm (extractReq title prior i n c))).getD empty ::
      specExtractLoop llm parse empty title prior n cs (i + 1)

/-- Spec-comparison definition following the spec's words for C3:
extraction parse failures degrade to an empty record for the failing
segment and the chapter continues (always produces a merged record). -/
def specExtractElements (llm : ExtractRequest → SStr) (parse : SStr → Option α)
    (empty : α) (merge : List α → α) (ct : SStr → Nat) (maxT : Nat)
    (title prior text : SStr) : α :=
  let chunks := chunkText ct maxT text
  if chunks.length = 1 then
    (parse (llm { chapterTitle := title,
                  priorContext := orDefault prior firstChapterMsg,
                  chapterText := text })).getD empty
  else
    merge (specExtractLoop llm parse empty title prior chunks.length chunks 0)

/-- A parser for which every response fails to parse. -/
def noParse : SStr → Option FictionExtraction := fun _ => none

/-- An extraction oracle answering with the empty string. -/
def eLlm : ExtractRequest → SStr := fun _ => []

/-- C3 counterexample: on the two-segment chapter `"x\n\ny"` with a
response that does not parse, `extract_elements` propagates the parse
failure (`none`, the uncaught `JSONDecodeError`) and the chapter aborts,
while the behavior the claim describes would continue and produce the
merge of empty records. -/
theorem extract_parse_failure_cex :
    extractElements eLlm noParse (mergeFiction firstSeenDedup)
        List.length 1 [] [] xyText = none ∧
      specExtractElements eLlm noParse emptyFiction (mergeFiction firstSeenDedup)
          List.length 1 [] [] xyText =
        mergeFiction firstSeenDedup [emptyFiction, emptyFiction] := by
  exact ⟨by decide, by decide⟩

theorem extractLoop_none (llm : ExtractRequest → SStr) (parse : SStr → Option α)
    (title prior : SStr) (n : Nat) :
    ∀ (cs : List SStr) (i j : Nat) (c : SStr), cs[j]? = some c →
      parse (llm (extractReq title prior (i + j) n c)) = none →
      extractLoop llm parse title prior n cs i = none := by
  intro cs
  induction cs with
  | nil =>
    intro i j c hc
    simp at hc
  | cons c0 cs ih =>
    intro i j c hc hfail
    match j with
    | 0 =>
      rw [List.getElem?_cons_zero, Option.some_inj] at hc
      subst hc
      rw [Nat.add_zero] at hfail
      rw [extractLoop, hfail]
    | j + 1 =>
      rw [List.getElem?_cons_succ] at hc
      rw [extractLoop]
      match hp : parse (llm (extractReq title prior i n c0)) with
      | none => rfl
      | some e =>
        have : extractLoop llm parse title prior n cs (i + 1) = none :=
          ih (i + 1) j c hc (by rw [show i + 1 + j = i + (j + 1) from by omega]; exact hfail)
        rw [this]
        rfl

/-- C3 (amended): a structured-output response that fails to parse is NOT
degraded to an empty record: the `json.loads` error propagates out of
`extract_elements` and the chapter's processing aborts — for a
single-segment chapter when its one response fails to parse, and for a
multi-segment chapter when any segment's response fails to parse. -/
theorem extract_parse_failure_aborts (llm : ExtractRequest → SStr)
    (parse : SStr → Option α) (merge : List α → α) (ct : SStr → Nat) (maxT : Nat)
    (title prior text : SStr) :
    ((chunkText ct maxT text).length = 1 →
        parse (llm { chapterTitle := title,
                     priorContext := orDefault prior firstChapterMsg,
                     chapterText := text }) = none →
        extractElements llm parse merge ct maxT title prior text = none) ∧
      (2 ≤ (chunkText ct maxT text).length →
        ∀ (j : Nat) (c : SStr), (chunkText ct maxT text)[j]? = some c →
          parse (llm (extractReq title prior j (chunkText ct maxT text).length c)) = none →
          extractElements llm parse merge ct maxT title prior text = none) := by
  constructor
  · intro hlen hfail
    unfold extractElements
    rw [if_pos hlen, hfail]
  · intro hlen j c hc hfail
    have hne : ¬ (chunkText ct maxT text).length = 1 := by omega
    unfold extractElements
    rw [if_neg hne]
    rw [extractLoop_none llm parse title prior (chunkText ct maxT text).length
      (chunkText ct maxT text) 0 j c hc (by simpa using hfail)]
    rfl

/-- Witness for the amended C3 at a concrete single-segment chapter
(`"hi"`, one chunk) whose response fails to parse. -/
theorem extract_parse_failure_aborts_witness :
    extractElements eLlm noParse (mergeFiction firstSeenDedup)
        List.length 1 [] [] ['h', 'i'] = none :=
  (extract_parse_failure_aborts eLlm noParse (mergeFiction firstSeenDedup)
      List.length 1 [] [] ['h', 'i']).1 (by decide) (by decide)

-- ### The per-chapter pipeline (`process_book`, `summarizer.py` lines 374–498)

/-- The data interpolated into the analysis prompt (`generate_analysis`,
lines 320–344). -/
structure AnalysisRequest where
  chapterTitle : SStr
  themesSoFar : SStr
  chapterSummary : SStr
  extraction : FictionExtraction
deriving DecidableEq, Repr

/-- The rolling context dictionary: the keys `process_book` reads
(lines 422–423). -/
structure Context where
  story_so_far : SStr
  argument_so_far : SStr
  themes_identified : List SStr
deriving DecidableEq, Repr

/-- The data interpolated into the context-update prompt
(`update_context`, lines 347–367). -/
structure ContextRequest where
  currentContext : Context
  chapterSummary : SStr
  extraction : FictionExtraction
deriving DecidableEq, Repr

/-- What one processed chapter produces (summary and analysis are written
to the chapter's output file; the extraction grounds them). -/
structure ChapterOutput where
  summary : SStr
  analysis : SStr
  extraction : FictionExtraction
deriving DecidableEq, Repr

/-- The external collaborators `process_book` closes over: the token
oracle, the chunk limit, and the generation/parsing services. -/
structure Pipeline where
  ct : SStr → Nat
  maxT : Nat
  extractLlm : ExtractRequest → SStr
  parseExtract : SStr → Option FictionExtraction
  setList : List SStr → List SStr
  summaryLlm : SummaryRequest → SStr
  combineLlm : CombineRequest → SStr
  analysisLlm : AnalysisRequest → SStr
  contextLlm : ContextRequest → SStr
  parseContext : SStr → Option Context

/-- `", ".join(...)` (line 423). -/
def joinComma (l : List SStr) : SStr := List.intercalate [',', ' '] l

/-- The fallback themes sentence (`generate_analysis`, line 339). -/
def noThemesMsg : SStr := "No themes identified yet.".toList

/-- The body of `process_book`'s per-chapter loop (lines 412–489): skip a
chapter under 100 words (`continue`, context untouched), otherwise
extract, summarize, analyze, and resynthesize the rolling context.
`none` models an uncaught exception aborting the run (a parse failure in
extraction or in the context update). -/
def processChapter (P : Pipeline) (ctx : Context) (title text : SStr) :
    Option (Option ChapterOutput × Context) :=
  if countWords text < 100 then some (none, ctx)
  else
    let story := orDefault ctx.story_so_far ctx.argument_so_far
    let themes := joinComma ctx.themes_identified
    match extractElements P.extractLlm P.parseExtract (mergeFiction P.setList)
        P.ct P.maxT title story text with
    | none => none
    | some ext =>
      let summary := (generateSummary P.summaryLlm P.combineLlm P.ct P.maxT
        title story ext text).1
      let analysis := P.analysisLlm ⟨title, orDefault themes noThemesMsg, summary, ext⟩
      match P.parseContext (P.contextLlm ⟨ctx, summary, ext⟩) with
      | none => none
      | some ctx2 => some (some ⟨summary, analysis, ext⟩, ctx2)

/-- `process_book`'s chapter loop, threading the rolling context and
collecting each processed chapter's output in order. -/
def processBook (P : Pipeline) : List (SStr × SStr) → Context →
    Option (List ChapterOutput × Context)
  | [], ctx => some ([], ctx)
  | (title, text) :: rest, ctx =>
    match processChapter P ctx title text with
    | none => none
    | some (none, ctx2) => processBook P rest ctx2
    | some (some out, ctx2) =>
      (processBook P rest ctx2).map (fun r => (out :: r.1, r.2))

/-- C8: a chapter whose word count is under the 100-word skip threshold
produces no extraction record, no summary, and no analysis (no
`ChapterOutput` at all), and the rolling context handed to the next
chapter is exactly the incoming one: processing the book with the short
chapter in front is processing the rest from the same context. -/
theorem short_chapter_skipped (P : Pipeline) (ctx : Context) (title text : SStr)
    (h : countWords text < 100) (rest : List (SStr × SStr)) :
    processChapter P ctx title text = some (none, ctx) ∧
      processBook P ((title, text) :: rest) ctx = processBook P rest ctx := by
  have h1 : processChapter P ctx title text = some (none, ctx) := by
    unfold processChapter
    rw [if_pos h]
  refine ⟨h1, ?_⟩
  simp only [processBook, h1]

/-- A concrete pipeline used to witness the skip behavior. -/
def trivialPipe : Pipeline :=
  { ct := List.length, maxT := 1, extractLlm := eLlm,
    parseExtract := fun _ => some emptyFiction, setList := firstSeenDedup,
    summaryLlm := sLlm, combineLlm := cLlm, analysisLlm := fun _ => [],
    contextLlm := fun _ => [], parseContext := fun _ => none }

/-- The empty rolling context `process_book` starts from (line 409). -/
def emptyContext : Context := ⟨[], [], []⟩

/-- Witness for C8 at the concrete one-word chapter body `"hi"`: it is
under the 100-word threshold, so it is skipped and the rolling context is
unchanged. -/
theorem short_chapter_skipped_witness :
    processChapter trivialPipe emptyContext [] ['h', 'i'] = some (none, emptyContext) ∧
      processBook trivialPipe [([], ['h', 'i'])] emptyContext =
        processBook trivialPipe [] emptyContext :=
  short_chapter_skipped trivialPipe emptyContext [] ['h', 'i'] (by decide) []

end BookFeatures
